import Mathlib

/-!
Verification of the hierarchical block regrouper scripts of the
svelte-ai-context repository.  The scripts read a flat list of blocks
(content, breadcrumbs, optional href), filter out blocks with empty content
or excluded href prefixes, and either emit the filtered list (flat modes)
or regroup the blocks into a chapter / section tree (fixed-schema mode in
scripts/optimize.js, discovered-schema mode in the unnamed script).

The definitions below are a shallow embedding of the per-invocation pure
core of each script: file access, JSON serialisation and statistics
printing are outside the model.  JavaScript strings are Lean strings;
a missing or non-string, non-array breadcrumbs value is the constructor
Bcrumbs.missing, on which the fixed-schema script would raise a TypeError
(modelled by Option.none in the per-block step).  A missing or empty JS
content string is modelled by the empty Lean string, since the scripts
only test its truthiness.
-/

/-- Model of the JavaScript s.startsWith(p) test on strings. -/
def strStartsWith (s p : String) : Bool := p.data.isPrefixOf s.data

/-- Removes the first occurrence of pat from s, as a character list.
Mirrors the JavaScript s.replace(pat, "") with a string pattern,
which replaces only the leftmost occurrence and returns s unchanged
when pat does not occur. -/
def removeFirst : List Char → List Char → List Char
  | [], _ => []
  | c :: rest, pat =>
    if pat.isPrefixOf (c :: rest) then (c :: rest).drop pat.length
    else c :: removeFirst rest pat

/-- Model of the JavaScript s.replace(pat, "") with a string pattern. -/
def replaceFirst (s pat : String) : String := String.mk (removeFirst s.data pat.data)

/-- Model of the JavaScript array.join(sep) on an array of strings. -/
def joinSep (sep : String) : List String → String
  | [] => ""
  | [x] => x
  | x :: y :: rest => x ++ sep ++ joinSep sep (y :: rest)

/-- Model of the JavaScript s.trim(): drop whitespace from both ends. -/
def strTrim (s : String) : String :=
  String.mk (((s.data.dropWhile Char.isWhitespace).reverse.dropWhile Char.isWhitespace).reverse)

/-- The breadcrumbs field of an input block: an array of segment strings,
a single pre-joined string, or anything else (absent, null, a number...),
which the scripts can only detect via Array.isArray and string-method
calls. -/
inductive Bcrumbs where
  | arr (segs : List String)
  | str (s : String)
  | missing
deriving DecidableEq

/-- An input record of content.json.  content is the block text, with the
empty string standing for an absent, null or empty JS value (the scripts
only test its truthiness); href is the optional source path. -/
structure Block where
  content : String
  breadcrumbs : Bcrumbs
  href : Option String
deriving DecidableEq

/-- A title and content pair pushed into a chapter / section bucket. -/
structure Entry where
  title : String
  content : String
deriving DecidableEq

/-- The block filter shared verbatim by all scripts: reject a block with
falsy content; if it has a truthy href, reject it when the href starts
with one of the excluded patterns. -/
def keepBlock (excludePatterns : List String) (block : Block) : Bool :=
  if block.content = "" then false
  else match block.href with
    | some href =>
        if href = "" then true
        else !(excludePatterns.any (fun p => strStartsWith href p))
    | none => true

/-- The mutable chapters accumulator of the grouping scripts: an
insertion-ordered association from chapter key to an insertion-ordered
association from section key to the list of pushed entries. -/
abbrev Buckets := List (String × List (String × List Entry))

/-- Appends an entry to the named section bucket of a section association;
leaves the association unchanged when the section key is absent. -/
def pushSec : List (String × List Entry) → String → Entry → List (String × List Entry)
  | [], _, _ => []
  | (s, es) :: rest, secName, e =>
    if s = secName then (s, es ++ [e]) :: rest
    else (s, es) :: pushSec rest secName e

/-- Appends an entry to the (mainChapter, secName) bucket; leaves the
accumulator unchanged when the bucket is absent. -/
def pushEntry : Buckets → String → String → Entry → Buckets
  | [], _, _, _ => []
  | (c, subs) :: rest, mainChapter, secName, e =>
    if c = mainChapter then (c, pushSec subs secName e) :: rest
    else (c, subs) :: pushEntry rest mainChapter secName e

/-- Whether a section association has a bucket under the given key. -/
def hasSec : List (String × List Entry) → String → Bool
  | [], _ => false
  | (s, _) :: rest, secName => if s = secName then true else hasSec rest secName

/-- The entry list of a section association under the given key, or the
empty list when the key is absent. -/
def secAt : List (String × List Entry) → String → List Entry
  | [], _ => []
  | (s, es) :: rest, secName => if s = secName then es else secAt rest secName

/-- Model of the JavaScript truthiness test chapters[mainChapter]?.[secName]:
true exactly when the bucket exists (a JS array is always truthy). -/
def hasBucket : Buckets → String → String → Bool
  | [], _, _ => false
  | (c, subs) :: rest, mainChapter, secName =>
    if c = mainChapter then hasSec subs secName else hasBucket rest mainChapter secName

/-- The entry list stored at the (mainChapter, secName) bucket, or the
empty list when the bucket is absent. -/
def bucketAt : Buckets → String → String → List Entry
  | [], _, _ => []
  | (c, subs) :: rest, mainChapter, secName =>
    if c = mainChapter then secAt subs secName else bucketAt rest mainChapter secName

namespace Fixed

/-- Exclude patterns of scripts/optimize.js. -/
def excludePatterns : List String := ["/docs/svelte/legacy", "/tutorial"]

/-- The hard-coded chapter structure of scripts/optimize.js, in source
order (JS object key insertion order, all keys non-numeric). -/
def chapterStructure : List (String × List String) :=
  [("Docs > SvelteKit",
     ["Getting started", "Core concepts", "Advanced", "Build and deploy",
      "Best practices"]),
   ("Docs > Svelte",
     ["Introduction", "Runes", "Template syntax", "Styling",
      "Special elements", "Runtime", "Advanced", "Testing", "TypeScript",
      "Custom elements", "Packaging"])]

/-- Object.keys(chapterStructure), in insertion order. -/
def chapterKeys : List String := chapterStructure.map Prod.fst

/-- chapterStructure[mainChapter]: the configured section list of a
chapter key. -/
def sectionsOf (mainChapter : String) : List String :=
  ((chapterStructure.find? (fun p => decide (p.1 = mainChapter))).map Prod.snd).getD []

/-- The breadcrumb normalisation of scripts/optimize.js: join an array
with the separator, pass a string through; none models the TypeError the
script raises when calling startsWith on any other value. -/
def joinBreadcrumbs : Bcrumbs → Option String
  | .arr segs => some (joinSep " > " segs)
  | .str s => some s
  | .missing => none

/-- Object.keys(chapterStructure).find(chapter => breadcrumbs.startsWith(chapter)). -/
def findChapter (breadcrumbs : String) : Option String :=
  chapterKeys.find? (fun chapter => strStartsWith breadcrumbs chapter)

/-- The chapter and section matching of scripts/optimize.js on a joined
breadcrumb string: first matching chapter key by startsWith, strip the
first occurrence of the chapter key plus separator, first matching
section of that chapter by startsWith, strip it likewise to get the
title. -/
def matchBlock (breadcrumbs : String) : Option (String × String × String) :=
  match findChapter breadcrumbs with
  | none => none
  | some mainChapter =>
    let remainingPath := replaceFirst breadcrumbs (mainChapter ++ " > ")
    match (sectionsOf mainChapter).find? (fun sub => strStartsWith remainingPath sub) with
    | none => none
    | some subChapter =>
        some (mainChapter, subChapter, replaceFirst remainingPath (subChapter ++ " > "))

/-- The initial chapters accumulator: every configured chapter with every
configured section mapped to an empty bucket. -/
def initChapters : Buckets :=
  chapterStructure.map (fun p => (p.1, p.2.map (fun s => (s, ([] : List Entry)))))

/-- One iteration of the forEach over filtered blocks; none models the
TypeError on a non-array, non-string breadcrumbs value, which aborts the
whole invocation. -/
def processBlock (chapters : Buckets) (block : Block) : Option Buckets :=
  match joinBreadcrumbs block.breadcrumbs with
  | none => none
  | some breadcrumbs =>
    match matchBlock breadcrumbs with
    | none => some chapters
    | some (mainChapter, subChapter, title) =>
        some (pushEntry chapters mainChapter subChapter ⟨title, block.content⟩)

/-- The grouping pass of scripts/optimize.js: filter the blocks, then
file each one into the fixed accumulator; none when the pass aborts. -/
def group (blocks : List Block) : Option Buckets :=
  (blocks.filter (keepBlock excludePatterns)).foldlM processBlock initChapters

/-- An output section of scripts/optimize.js: JSON section and blocks
fields. -/
structure OutSection where
  secName : String
  blocks : List Entry
deriving DecidableEq

/-- An output chapter of scripts/optimize.js: JSON chapter and sections
fields. -/
structure OutChapter where
  chapter : String
  sections : List OutSection
deriving DecidableEq

/-- The output conversion of scripts/optimize.js: keep non-empty section
buckets as block lists, drop chapters with no remaining section. -/
def toOutput (chapters : Buckets) : List OutChapter :=
  (chapters.map (fun p =>
    (⟨p.1, (p.2.filter (fun q => 0 < q.2.length)).map
            (fun q => ⟨q.1, q.2⟩)⟩ : OutChapter))).filter
    (fun c => 0 < c.sections.length)

/-- The pure core of scripts/optimize.js on a parsed blocks array. -/
def optimizeContent (blocks : List Block) : Option (List OutChapter) :=
  (group blocks).map toOutput

end Fixed

namespace Disc

/-- Exclude patterns of the discovered-schema script. -/
def excludePatterns : List String :=
  ["/docs/svelte/legacy", "/docs/kit/migrating", "/tutorial"]

/-- Registers a discovered (mainChapter, level3) pair in the analysis
accumulator, preserving Map and Set insertion order and deduplication. -/
def addPair : List (String × List String) → String → String → List (String × List String)
  | [], mainChapter, level3 => [(mainChapter, [level3])]
  | (c, secs) :: rest, mainChapter, level3 =>
    if c = mainChapter then
      (c, if level3 ∈ secs then secs else secs ++ [level3]) :: rest
    else (c, secs) :: addPair rest mainChapter level3

/-- One iteration of the analysis pass over all blocks: a block whose
breadcrumbs is an array of at least three segments registers the pair
(segments[0] ++ " > " ++ segments[1], segments[2]); every other block is
skipped. -/
def analyzeStep (acc : List (String × List String)) (block : Block) : List (String × List String) :=
  match block.breadcrumbs with
  | .arr (level1 :: level2 :: level3 :: _) => addPair acc (level1 ++ " > " ++ level2) level3
  | _ => acc

/-- The discovery pass of the discovered-schema script, run over the
unfiltered input. -/
def chapterStructure (blocks : List Block) : List (String × List String) :=
  blocks.foldl analyzeStep []

/-- The initial accumulator: one empty bucket for every discovered
(chapter, section) pair. -/
def initChapters (blocks : List Block) : Buckets :=
  (chapterStructure blocks).map (fun p => (p.1, p.2.map (fun s => (s, ([] : List Entry)))))

/-- One iteration of the forEach over filtered blocks: a block needs an
array breadcrumbs of at least four segments; its entry is pushed only when
its (chapter, section) bucket already exists, and is silently dropped
otherwise. -/
def processBlock (chapters : Buckets) (block : Block) : Buckets :=
  match block.breadcrumbs with
  | .arr (level1 :: level2 :: level3 :: r :: restLevels) =>
    let mainChapter := level1 ++ " > " ++ level2
    let title := joinSep " > " (r :: restLevels)
    if hasBucket chapters mainChapter level3 then
      pushEntry chapters mainChapter level3 ⟨title, block.content⟩
    else chapters
  | _ => chapters

/-- Discovery pass over the unfiltered blocks, then the filtered second
pass filing each placeable block. -/
def group (blocks : List Block) : Buckets :=
  (blocks.filter (keepBlock excludePatterns)).foldl processBlock (initChapters blocks)

/-- Renders one section bucket into a single markdown document: each
entry becomes a heading line, a blank line and its content, entries are
joined with a blank line, and the result is trimmed. -/
def renderSection (blocks : List Entry) : String :=
  strTrim (joinSep "\n" (blocks.map (fun b => "### " ++ b.title ++ "\n\n" ++ b.content ++ "\n")))

/-- An output section of the discovered-schema script: JSON section and
content fields. -/
structure MergedSection where
  secName : String
  content : String
deriving DecidableEq

/-- An output chapter of the discovered-schema script. -/
structure MergedChapter where
  chapter : String
  sections : List MergedSection
deriving DecidableEq

/-- The pure core of the discovered-schema script on a parsed blocks
array: group, render each non-empty section, drop chapters with no
remaining section. -/
def optimizeContent (blocks : List Block) : List MergedChapter :=
  ((group blocks).map (fun p =>
    (⟨p.1, (p.2.filter (fun q => 0 < q.2.length)).map
            (fun q => ⟨q.1, renderSection q.2⟩)⟩ : MergedChapter))).filter
    (fun c => 0 < c.sections.length)

/-- The entry the second pass derives from a block for a given bucket:
some entry exactly when the block has an array breadcrumbs of at least
four segments whose derived chapter and section keys are the given ones. -/
def entryFor (mainChapter secName : String) (block : Block) : Option Entry :=
  match block.breadcrumbs with
  | .arr (level1 :: level2 :: level3 :: r :: restLevels) =>
    if level1 ++ " > " ++ level2 = mainChapter ∧ level3 = secName then
      some ⟨joinSep " > " (r :: restLevels), block.content⟩
    else none
  | _ => none

end Disc

namespace FlatFilter

/-- Exclude patterns of the filter-only flat script. -/
def excludePatterns : List String := ["/docs/svelte/legacy"]

/-- The pure core of the filter-only flat script: the blocks array of the
output object, the other top-level fields being passed through by the
object spread. -/
def optimizeBlocks (blocks : List Block) : List Block :=
  blocks.filter (keepBlock excludePatterns)

end FlatFilter

namespace FlatMap

/-- Exclude patterns of the title-mapping flat script. -/
def excludePatterns : List String := ["/docs/svelte/legacy"]

/-- An output block of the title-mapping flat script: title is the joined
breadcrumbs, or none when the breadcrumbs field is neither an array nor a
string (JSON.stringify then omits the field). -/
structure TitledBlock where
  title : Option String
  content : String
deriving DecidableEq

/-- The map step of the title-mapping flat script. -/
def toTitled (block : Block) : TitledBlock :=
  ⟨match block.breadcrumbs with
    | .arr segs => some (joinSep " > " segs)
    | .str s => some s
    | .missing => none,
   block.content⟩

/-- The pure core of the title-mapping flat script on a parsed blocks
array. -/
def optimizeBlocks (blocks : List Block) : List TitledBlock :=
  (blocks.filter (keepBlock excludePatterns)).map toTitled

/-- Reads an output block of the title-mapping script back as an input
block: it has a content field, and neither a breadcrumbs nor an href
field. -/
def rewrap (t : TitledBlock) : Block := ⟨t.content, Bcrumbs.missing, none⟩

end FlatMap

/-! Helper lemmas about the bucket accumulator. -/

theorem hasSec_pushSec (subs : List (String × List Entry)) (s0 : String) (e : Entry)
    (s : String) : hasSec (pushSec subs s0 e) s = hasSec subs s := by
  induction subs with
  | nil => rfl
  | cons q rest ih =>
    obtain ⟨qs, qes⟩ := q
    simp only [pushSec]
    by_cases h0 : qs = s0
    · simp only [if_pos h0, hasSec]
    · simp only [if_neg h0, hasSec]
      by_cases h1 : qs = s
      · simp only [if_pos h1]
      · simp only [if_neg h1, ih]

theorem secAt_pushSec_same (subs : List (String × List Entry)) (s : String) (e : Entry)
    (h : hasSec subs s = true) : secAt (pushSec subs s e) s = secAt subs s ++ [e] := by
  induction subs with
  | nil => simp [hasSec] at h
  | cons q rest ih =>
    obtain ⟨qs, qes⟩ := q
    simp only [pushSec]
    by_cases h0 : qs = s
    · simp only [if_pos h0, secAt]
    · simp only [if_neg h0, secAt]
      simp only [hasSec, if_neg h0] at h
      simp only [if_neg h0, ih h]

theorem secAt_pushSec_ne (subs : List (String × List Entry)) (s0 : String) (e : Entry)
    (s : String) (h : s0 ≠ s) : secAt (pushSec subs s0 e) s = secAt subs s := by
  induction subs with
  | nil => rfl
  | cons q rest ih =>
    obtain ⟨qs, qes⟩ := q
    simp only [pushSec]
    by_cases h0 : qs = s0
    · have h1 : qs ≠ s := h0 ▸ h
      simp only [if_pos h0, secAt, if_neg h1]
    · simp only [if_neg h0, secAt]
      by_cases h1 : qs = s
      · simp only [if_pos h1]
      · simp only [if_neg h1, ih]

theorem hasBucket_pushEntry (bs : Buckets) (c0 s0 : String) (e : Entry) (c s : String) :
    hasBucket (pushEntry bs c0 s0 e) c s = hasBucket bs c s := by
  induction bs with
  | nil => rfl
  | cons p rest ih =>
    obtain ⟨pc, psubs⟩ := p
    simp only [pushEntry]
    by_cases h0 : pc = c0
    · simp only [if_pos h0, hasBucket]
      by_cases h1 : pc = c
      · simp only [if_pos h1, hasSec_pushSec]
      · simp only [if_neg h1]
    · simp only [if_neg h0, hasBucket]
      by_cases h1 : pc = c
      · simp only [if_pos h1]
      · simp only [if_neg h1, ih]

theorem bucketAt_pushEntry_same (bs : Buckets) (c s : String) (e : Entry)
    (h : hasBucket bs c s = true) :
    bucketAt (pushEntry bs c s e) c s = bucketAt bs c s ++ [e] := by
  induction bs with
  | nil => simp [hasBucket] at h
  | cons p rest ih =>
    obtain ⟨pc, psubs⟩ := p
    simp only [pushEntry]
    by_cases h0 : pc = c
    · simp only [hasBucket, if_pos h0] at h
      simp only [if_pos h0, bucketAt, secAt_pushSec_same psubs s e h]
    · simp only [hasBucket, if_neg h0] at h
      simp only [if_neg h0, bucketAt, ih h]

theorem bucketAt_pushEntry_ne (bs : Buckets) (c0 s0 : String) (e : Entry) (c s : String)
    (h : ¬(c0 = c ∧ s0 = s)) :
    bucketAt (pushEntry bs c0 s0 e) c s = bucketAt bs c s := by
  induction bs with
  | nil => rfl
  | cons p rest ih =>
    obtain ⟨pc, psubs⟩ := p
    simp only [pushEntry]
    by_cases h0 : pc = c0
    · simp only [if_pos h0, bucketAt]
      by_cases h1 : pc = c
      · have hss : s0 ≠ s := by
          intro hs
          exact h ⟨h0 ▸ h1, hs⟩
        simp only [if_pos h1, secAt_pushSec_ne psubs s0 e s hss]
      · simp only [if_neg h1]
    · simp only [if_neg h0, bucketAt]
      by_cases h1 : pc = c
      · simp only [if_pos h1]
      · simp only [if_neg h1, ih]

/-! Characterisation of the discovered-schema second pass as a fold. -/

theorem hasBucket_processBlock (bs : Buckets) (b : Block) (c s : String) :
    hasBucket (Disc.processBlock bs b) c s = hasBucket bs c s := by
  unfold Disc.processBlock
  cases hb : b.breadcrumbs with
  | arr segs =>
    match segs with
    | [] => rfl
    | [x] => rfl
    | [x, y] => rfl
    | [x, y, z] => rfl
    | x :: y :: z :: r :: rest =>
      simp only
      split
      · exact hasBucket_pushEntry bs _ _ _ c s
      · rfl
  | str s0 => rfl
  | missing => rfl

theorem bucketAt_processBlock (bs : Buckets) (b : Block) (c s : String) :
    bucketAt (Disc.processBlock bs b) c s =
      bucketAt bs c s ++
        (if hasBucket bs c s = true then (Disc.entryFor c s b).toList else []) := by
  unfold Disc.processBlock Disc.entryFor
  cases hb : b.breadcrumbs with
  | arr segs =>
    match segs with
    | [] => simp
    | [x] => simp
    | [x, y] => simp
    | [x, y, z] => simp
    | x :: y :: z :: r :: rest =>
      simp only
      by_cases hkey : x ++ " > " ++ y = c ∧ z = s
      · obtain ⟨hk1, hk2⟩ := hkey
        subst hk1; subst hk2
        by_cases hhb : hasBucket bs (x ++ " > " ++ y) z = true
        · simp only [if_pos hhb, and_self, if_pos,
            bucketAt_pushEntry_same bs _ _ _ hhb, Option.toList_some]
        · simp only [if_neg hhb, Bool.not_eq_true] at *
          simp [hhb]
      · by_cases hhb : hasBucket bs (x ++ " > " ++ y) z = true
        · simp only [if_pos hhb, bucketAt_pushEntry_ne bs _ _ _ c s hkey,
            if_neg hkey, Option.toList_none, List.append_nil]
          simp
        · simp only [if_neg hhb, if_neg hkey, Option.toList_none, List.append_nil]
          simp
  | str s0 => simp
  | missing => simp

theorem bucketAt_foldl (c s : String) (l : List Block) :
    ∀ bs : Buckets,
      bucketAt (l.foldl Disc.processBlock bs) c s =
        bucketAt bs c s ++
          (if hasBucket bs c s = true then l.filterMap (Disc.entryFor c s) else []) := by
  induction l with
  | nil => intro bs; simp
  | cons b l ih =>
    intro bs
    simp only [List.foldl_cons]
    rw [ih (Disc.processBlock bs b), bucketAt_processBlock,
      hasBucket_processBlock, List.append_assoc]
    by_cases hhb : hasBucket bs c s = true
    · simp only [if_pos hhb, List.filterMap_cons]
      cases hf : Disc.entryFor c s b <;> simp
    · simp only [if_neg hhb, List.append_nil]

/-! The initial accumulator and the discovery pass. -/

theorem secAt_init (secs : List String) (s : String) :
    secAt (secs.map (fun x => (x, ([] : List Entry)))) s = [] := by
  induction secs with
  | nil => rfl
  | cons x rest ih =>
    simp only [List.map_cons, secAt]
    by_cases h : x = s
    · simp only [if_pos h]
    · simp only [if_neg h, ih]

theorem bucketAt_initMap (ds : List (String × List String)) (c s : String) :
    bucketAt (ds.map (fun p => (p.1, p.2.map (fun x => (x, ([] : List Entry)))))) c s = [] := by
  induction ds with
  | nil => rfl
  | cons p rest ih =>
    obtain ⟨pc, psecs⟩ := p
    simp only [List.map_cons, bucketAt]
    by_cases h : pc = c
    · simp only [if_pos h, secAt_init]
    · simp only [if_neg h, ih]

/-- Whether a chapter-structure association registers a given
chapter and section pair. -/
def hasPair : List (String × List String) → String → String → Bool
  | [], _, _ => false
  | (c, secs) :: rest, mainChapter, secName =>
    if c = mainChapter then decide (secName ∈ secs) else hasPair rest mainChapter secName

theorem hasSec_init (secs : List String) (s : String) :
    hasSec (secs.map (fun x => (x, ([] : List Entry)))) s = decide (s ∈ secs) := by
  induction secs with
  | nil => simp [hasSec]
  | cons x rest ih =>
    simp only [List.map_cons, hasSec]
    by_cases h : x = s
    · simp [h]
    · simp only [if_neg h, ih]
      simp [List.mem_cons, Ne.symm h]

theorem hasBucket_initMap (ds : List (String × List String)) (c s : String) :
    hasBucket (ds.map (fun p => (p.1, p.2.map (fun x => (x, ([] : List Entry)))))) c s
      = hasPair ds c s := by
  induction ds with
  | nil => rfl
  | cons p rest ih =>
    obtain ⟨pc, psecs⟩ := p
    simp only [List.map_cons, hasBucket, hasPair]
    by_cases h : pc = c
    · simp only [if_pos h, hasSec_init]
    · simp only [if_neg h, ih]

theorem hasPair_addPair_self (acc : List (String × List String)) (c s : String) :
    hasPair (Disc.addPair acc c s) c s = true := by
  induction acc with
  | nil => simp [Disc.addPair, hasPair]
  | cons p rest ih =>
    obtain ⟨pc, psecs⟩ := p
    simp only [Disc.addPair]
    by_cases h : pc = c
    · simp only [if_pos h, hasPair, if_pos h]
      by_cases hm : s ∈ psecs
      · simp [hm]
      · simp [hm]
    · simp only [if_neg h, hasPair, if_neg h, ih]

theorem hasPair_addPair_mono (acc : List (String × List String)) (c0 s0 c s : String)
    (h : hasPair acc c s = true) : hasPair (Disc.addPair acc c0 s0) c s = true := by
  induction acc with
  | nil => simp [hasPair] at h
  | cons p rest ih =>
    obtain ⟨pc, psecs⟩ := p
    simp only [Disc.addPair]
    by_cases h0 : pc = c0
    · simp only [if_pos h0, hasPair]
      by_cases h1 : pc = c
      · simp only [hasPair, if_pos h1] at h
        simp only [if_pos h1]
        by_cases hm : s0 ∈ psecs
        · simp [hm, h]
        · simp only [if_neg hm]
          simp only [decide_eq_true_eq] at h ⊢
          exact List.mem_append_left _ h
      · simp only [hasPair, if_neg h1] at h
        simp only [if_neg h1, h]
    · simp only [if_neg h0, hasPair]
      by_cases h1 : pc = c
      · simp only [hasPair, if_pos h1] at h
        simp only [if_pos h1, h]
      · simp only [hasPair, if_neg h1] at h
        simp only [if_neg h1, ih h]

theorem hasPair_analyzeStep_mono (acc : List (String × List String)) (b : Block)
    (c s : String) (h : hasPair acc c s = true) :
    hasPair (Disc.analyzeStep acc b) c s = true := by
  unfold Disc.analyzeStep
  cases b.breadcrumbs with
  | arr segs =>
    match segs with
    | [] => exact h
    | [x] => exact h
    | [x, y] => exact h
    | x :: y :: z :: rest => exact hasPair_addPair_mono acc _ _ c s h
  | str s0 => exact h
  | missing => exact h

theorem hasPair_foldl_mono (l : List Block) (c s : String) :
    ∀ acc, hasPair acc c s = true →
      hasPair (l.foldl Disc.analyzeStep acc) c s = true := by
  induction l with
  | nil => intro acc h; exact h
  | cons b l ih =>
    intro acc h
    simp only [List.foldl_cons]
    exact ih _ (hasPair_analyzeStep_mono acc b c s h)

/-- Every block of the input with an array breadcrumbs of at least three
segments registers its chapter and section pair in the discovery pass. -/
theorem chapterStructure_registers (blocks : List Block) (b : Block)
    (l1 l2 l3 : String) (t : List String) (hmem : b ∈ blocks)
    (hb : b.breadcrumbs = .arr (l1 :: l2 :: l3 :: t)) :
    hasPair (Disc.chapterStructure blocks) (l1 ++ " > " ++ l2) l3 = true := by
  unfold Disc.chapterStructure
  have key : ∀ (l : List Block) (acc : List (String × List String)), b ∈ l →
      hasPair (l.foldl Disc.analyzeStep acc) (l1 ++ " > " ++ l2) l3 = true := by
    intro l
    induction l with
    | nil => intro acc h; simp at h
    | cons a l ih =>
      intro acc h
      simp only [List.foldl_cons]
      rcases List.mem_cons.mp h with rfl | h
      · apply hasPair_foldl_mono
        unfold Disc.analyzeStep
        rw [hb]
        exact hasPair_addPair_self acc _ _
      · exact ih _ h
  exact key blocks [] hmem

/-- The central characterisation of the discovered-schema grouping: the
bucket of a registered pair collects, in input order, exactly the entries
of the filtered blocks whose derived keys are that pair; an unregistered
pair keeps an empty bucket. -/
theorem disc_bucket_spec (blocks : List Block) (c s : String) :
    bucketAt (Disc.group blocks) c s =
      if hasPair (Disc.chapterStructure blocks) c s = true then
        (blocks.filter (keepBlock Disc.excludePatterns)).filterMap (Disc.entryFor c s)
      else [] := by
  unfold Disc.group Disc.initChapters
  rw [bucketAt_foldl, bucketAt_initMap, hasBucket_initMap]
  simp

/-! Key uniqueness: the discovery pass produces duplicate-free chapter
keys and per-chapter section keys, and the second pass preserves them. -/

/-- Duplicate-free keys of a discovered chapter structure. -/
def NodupKeys (ds : List (String × List String)) : Prop :=
  (ds.map Prod.fst).Nodup ∧ ∀ p ∈ ds, p.2.Nodup

/-- Duplicate-free chapter and section keys of a bucket accumulator. -/
def BNodupKeys (bs : Buckets) : Prop :=
  (bs.map Prod.fst).Nodup ∧ ∀ p ∈ bs, (p.2.map Prod.fst).Nodup

theorem map_fst_addPair (acc : List (String × List String)) (c s : String) :
    (Disc.addPair acc c s).map Prod.fst =
      if c ∈ acc.map Prod.fst then acc.map Prod.fst else acc.map Prod.fst ++ [c] := by
  induction acc with
  | nil => simp [Disc.addPair]
  | cons p rest ih =>
    obtain ⟨pc, psecs⟩ := p
    simp only [Disc.addPair]
    by_cases h : pc = c
    · subst h
      simp
    · simp only [if_neg h, List.map_cons, ih, List.mem_cons]
      have hne : ¬c = pc := fun hh => h hh.symm
      by_cases hm : c ∈ rest.map Prod.fst
      · simp [hm, hne]
      · simp [hm, hne]

theorem nodupKeys_addPair (c s : String) :
    ∀ acc : List (String × List String), NodupKeys acc → NodupKeys (Disc.addPair acc c s) := by
  intro acc
  induction acc with
  | nil =>
    intro _
    exact ⟨by simp [Disc.addPair], by simp [Disc.addPair]⟩
  | cons p rest ih =>
    obtain ⟨pc, psecs⟩ := p
    intro h
    obtain ⟨hk, hin⟩ := h
    simp only [List.map_cons, List.nodup_cons] at hk
    obtain ⟨hpc, hrest⟩ := hk
    have hinRest : ∀ q ∈ rest, q.2.Nodup := fun q hq => hin q (List.mem_cons_of_mem _ hq)
    simp only [Disc.addPair]
    by_cases hc : pc = c
    · rw [if_pos hc]
      constructor
      · simpa using And.intro hpc hrest
      · intro q hq
        rcases List.mem_cons.mp hq with rfl | hq
        · by_cases hm : s ∈ psecs
          · simpa [hm] using hin (pc, psecs) (List.mem_cons_self _ _)
          · have hnd : psecs.Nodup := hin (pc, psecs) (List.mem_cons_self _ _)
            simp only [if_neg hm]
            simp [List.nodup_append, hnd, hm]
        · exact hinRest q hq
    · rw [if_neg hc]
      obtain ⟨ihk, ihin⟩ := ih ⟨hrest, hinRest⟩
      constructor
      · simp only [List.map_cons, List.nodup_cons, map_fst_addPair]
        constructor
        · by_cases hm : c ∈ rest.map Prod.fst
          · simpa [hm] using hpc
          · rw [if_neg hm]
            simp only [List.mem_append]
            push_neg
            refine ⟨hpc, ?_⟩
            simp [hc]
        · rw [← map_fst_addPair]
          exact ihk
      · intro q hq
        rcases List.mem_cons.mp hq with rfl | hq
        · exact hin _ (List.mem_cons_self _ _)
        · exact ihin q hq

theorem nodupKeys_analyzeStep (acc : List (String × List String)) (b : Block)
    (h : NodupKeys acc) : NodupKeys (Disc.analyzeStep acc b) := by
  unfold Disc.analyzeStep
  cases b.breadcrumbs with
  | arr segs =>
    match segs with
    | [] => exact h
    | [x] => exact h
    | [x, y] => exact h
    | x :: y :: z :: rest => exact nodupKeys_addPair _ _ acc h
  | str s0 => exact h
  | missing => exact h

theorem nodupKeys_chapterStructure (blocks : List Block) :
    NodupKeys (Disc.chapterStructure blocks) := by
  unfold Disc.chapterStructure
  have key : ∀ (l : List Block) (acc : List (String × List String)), NodupKeys acc →
      NodupKeys (l.foldl Disc.analyzeStep acc) := by
    intro l
    induction l with
    | nil => intro acc h; exact h
    | cons a l ih =>
      intro acc h
      exact ih _ (nodupKeys_analyzeStep acc a h)
  exact key blocks [] ⟨by simp, by simp⟩

theorem map_fst_pairNil (l : List String) :
    (l.map (fun x => (x, ([] : List Entry)))).map Prod.fst = l := by
  induction l with
  | nil => rfl
  | cons x rest ih => simp [ih]

theorem bNodupKeys_initMap (ds : List (String × List String)) (h : NodupKeys ds) :
    BNodupKeys (ds.map (fun p => (p.1, p.2.map (fun x => (x, ([] : List Entry)))))) := by
  obtain ⟨hk, hin⟩ := h
  constructor
  · simpa [Function.comp] using hk
  · intro p hp
    obtain ⟨q, hq, rfl⟩ := List.mem_map.mp hp
    simp only [map_fst_pairNil]
    exact hin q hq

theorem map_fst_pushSec (subs : List (String × List Entry)) (s : String) (e : Entry) :
    (pushSec subs s e).map Prod.fst = subs.map Prod.fst := by
  induction subs with
  | nil => rfl
  | cons q rest ih =>
    obtain ⟨qs, qes⟩ := q
    simp only [pushSec]
    by_cases h : qs = s
    · simp [if_pos h]
    · simp [if_neg h, ih]

theorem map_fst_pushEntry (bs : Buckets) (c s : String) (e : Entry) :
    (pushEntry bs c s e).map Prod.fst = bs.map Prod.fst := by
  induction bs with
  | nil => rfl
  | cons p rest ih =>
    obtain ⟨pc, psubs⟩ := p
    simp only [pushEntry]
    by_cases h : pc = c
    · simp [if_pos h]
    · simp [if_neg h, ih]

theorem mem_pushEntry (c s : String) (e : Entry) :
    ∀ bs : Buckets, ∀ p ∈ pushEntry bs c s e,
      ∃ q ∈ bs, p.1 = q.1 ∧ p.2.map Prod.fst = q.2.map Prod.fst := by
  intro bs
  induction bs with
  | nil => simp [pushEntry]
  | cons hd rest ih =>
    obtain ⟨pc, psubs⟩ := hd
    intro p hp
    simp only [pushEntry] at hp
    by_cases h : pc = c
    · rw [if_pos h] at hp
      rcases List.mem_cons.mp hp with rfl | hp
      · exact ⟨(pc, psubs), List.mem_cons_self _ _, rfl, map_fst_pushSec psubs s e⟩
      · exact ⟨p, List.mem_cons_of_mem _ hp, rfl, rfl⟩
    · rw [if_neg h] at hp
      rcases List.mem_cons.mp hp with rfl | hp
      · exact ⟨(pc, psubs), List.mem_cons_self _ _, rfl, rfl⟩
      · obtain ⟨q, hq, h1, h2⟩ := ih p hp
        exact ⟨q, List.mem_cons_of_mem _ hq, h1, h2⟩

theorem bNodupKeys_pushEntry (bs : Buckets) (c s : String) (e : Entry)
    (h : BNodupKeys bs) : BNodupKeys (pushEntry bs c s e) := by
  obtain ⟨hk, hin⟩ := h
  constructor
  · rw [map_fst_pushEntry]; exact hk
  · intro p hp
    obtain ⟨q, hq, _, h2⟩ := mem_pushEntry c s e bs p hp
    rw [h2]
    exact hin q hq

theorem bNodupKeys_processBlock (bs : Buckets) (b : Block)
    (h : BNodupKeys bs) : BNodupKeys (Disc.processBlock bs b) := by
  unfold Disc.processBlock
  cases b.breadcrumbs with
  | arr segs =>
    match segs with
    | [] => exact h
    | [x] => exact h
    | [x, y] => exact h
    | [x, y, z] => exact h
    | x :: y :: z :: r :: rest =>
      simp only
      split
      · exact bNodupKeys_pushEntry bs _ _ _ h
      · exact h
  | str s0 => exact h
  | missing => exact h

theorem bNodupKeys_group (blocks : List Block) : BNodupKeys (Disc.group blocks) := by
  unfold Disc.group
  have key : ∀ (l : List Block) (bs : Buckets), BNodupKeys bs →
      BNodupKeys (l.foldl Disc.processBlock bs) := by
    intro l
    induction l with
    | nil => intro bs h; exact h
    | cons a l ih =>
      intro bs h
      exact ih _ (bNodupKeys_processBlock bs a h)
  exact key _ _ (bNodupKeys_initMap _ (nodupKeys_chapterStructure blocks))

theorem secAt_of_mem (s : String) (es : List Entry) :
    ∀ subs : List (String × List Entry), (subs.map Prod.fst).Nodup →
      (s, es) ∈ subs → secAt subs s = es := by
  intro subs
  induction subs with
  | nil => intro _ hm; simp at hm
  | cons q rest ih =>
    obtain ⟨qs, qes⟩ := q
    intro h hm
    simp only [List.map_cons, List.nodup_cons] at h
    obtain ⟨hq, hrest⟩ := h
    rcases List.mem_cons.mp hm with heq | hm
    · simp only [Prod.mk.injEq] at heq
      obtain ⟨rfl, rfl⟩ := heq
      simp [secAt]
    · have hne : qs ≠ s := by
        intro hh
        subst hh
        exact hq (List.mem_map.mpr ⟨(qs, es), hm, rfl⟩)
      simp only [secAt, if_neg hne]
      exact ih hrest hm

theorem bucketAt_of_mem (c s : String) (subs : List (String × List Entry)) (es : List Entry) :
    ∀ bs : Buckets, BNodupKeys bs → (c, subs) ∈ bs → (s, es) ∈ subs →
      bucketAt bs c s = es := by
  intro bs
  induction bs with
  | nil => intro _ hc _; simp at hc
  | cons p rest ih =>
    obtain ⟨pc, psubs⟩ := p
    intro h hc hs
    obtain ⟨hk, hin⟩ := h
    simp only [List.map_cons, List.nodup_cons] at hk
    obtain ⟨hp, hrest⟩ := hk
    rcases List.mem_cons.mp hc with heq | hc
    · simp only [Prod.mk.injEq] at heq
      obtain ⟨rfl, rfl⟩ := heq
      simp only [bucketAt, if_pos rfl]
      exact secAt_of_mem s es _ (hin _ (List.mem_cons_self _ _)) hs
    · have hne : pc ≠ c := by
        intro hh
        subst hh
        exact hp (List.mem_map.mpr ⟨(pc, subs), hc, rfl⟩)
      simp only [bucketAt, if_neg hne]
      exact ih ⟨hrest, fun q hq => hin q (List.mem_cons_of_mem _ hq)⟩ hc hs

/-! Decomposition of output members. -/

/-- Every section of the discovered-schema output is the rendering of its
own non-empty bucket in the grouped accumulator. -/
theorem disc_out_mem (blocks : List Block) (chO : Disc.MergedChapter)
    (secO : Disc.MergedSection) (h1 : chO ∈ Disc.optimizeContent blocks)
    (h2 : secO ∈ chO.sections) :
    bucketAt (Disc.group blocks) chO.chapter secO.secName ≠ [] ∧
      secO.content =
        Disc.renderSection (bucketAt (Disc.group blocks) chO.chapter secO.secName) := by
  unfold Disc.optimizeContent at h1
  obtain ⟨hmem, _⟩ := List.mem_filter.mp h1
  obtain ⟨p, hp, hchO⟩ := List.mem_map.mp hmem
  subst hchO
  simp only at h2
  obtain ⟨q, hq, hsecO⟩ := List.mem_map.mp h2
  obtain ⟨hqmem, hqlen⟩ := List.mem_filter.mp hq
  subst hsecO
  have hbq : bucketAt (Disc.group blocks) p.1 q.1 = q.2 := by
    apply bucketAt_of_mem p.1 q.1 p.2 q.2 _ (bNodupKeys_group blocks)
    · simpa using hp
    · simpa using hqmem
  simp only [decide_eq_true_eq] at hqlen
  constructor
  · simp only [hbq]
    intro hnil
    rw [hnil] at hqlen
    simp at hqlen
  · simp only [hbq]

/-- Every chapter of the discovered-schema output has a non-empty section
list. -/
theorem disc_out_chapter_nonempty (blocks : List Block) (chO : Disc.MergedChapter)
    (h1 : chO ∈ Disc.optimizeContent blocks) : chO.sections ≠ [] := by
  unfold Disc.optimizeContent at h1
  obtain ⟨_, hlen⟩ := List.mem_filter.mp h1
  simp only [decide_eq_true_eq] at hlen
  intro hnil
  rw [hnil] at hlen
  simp at hlen

/-- Every chapter of the fixed-schema output has a non-empty section list
whose sections all carry a non-empty block list. -/
theorem fixed_out_mem (bs : Buckets) (chO : Fixed.OutChapter)
    (h : chO ∈ Fixed.toOutput bs) :
    chO.sections ≠ [] ∧ ∀ secO ∈ chO.sections, secO.blocks ≠ [] := by
  unfold Fixed.toOutput at h
  obtain ⟨hmem, hlen⟩ := List.mem_filter.mp h
  simp only [decide_eq_true_eq] at hlen
  constructor
  · intro hnil
    rw [hnil] at hlen
    simp at hlen
  · obtain ⟨p, _, hchO⟩ := List.mem_map.mp hmem
    subst hchO
    intro secO hsecO
    simp only at hsecO
    obtain ⟨q, hq, hsec⟩ := List.mem_map.mp hsecO
    obtain ⟨_, hqlen⟩ := List.mem_filter.mp hq
    simp only [decide_eq_true_eq] at hqlen
    subst hsec
    simp only
    intro hnil
    rw [hnil] at hqlen
    simp at hqlen

/-! Generic list lemmas used by the claims. -/

/-- A successful List.find? returns the first satisfying element: the list
splits at the result and everything before it fails the predicate. -/
theorem findFirstSplit {α : Type} (p : α → Bool) (l : List α) (a : α)
    (h : l.find? p = some a) :
    ∃ l1 l2, l = l1 ++ a :: l2 ∧ p a = true ∧ ∀ x ∈ l1, p x = false := by
  induction l with
  | nil => simp [List.find?] at h
  | cons b rest ih =>
    by_cases hb : p b = true
    · rw [List.find?_cons_of_pos _ hb] at h
      obtain rfl := Option.some.inj h
      exact ⟨[], rest, rfl, hb, by simp⟩
    · rw [List.find?_cons_of_neg _ hb] at h
      obtain ⟨l1, l2, heq, hpa, hall⟩ := ih h
      refine ⟨b :: l1, l2, by simp [heq], hpa, ?_⟩
      intro x hx
      rcases List.mem_cons.mp hx with rfl | hx
      · exact Bool.eq_false_iff.mpr hb
      · exact hall x hx

/-- A monadic fold over Option returns none as soon as one element maps
every accumulator to none. -/
theorem foldlM_option_none {α β : Type} (f : β → α → Option β) (a : α)
    (hf : ∀ acc, f acc a = none) :
    ∀ (l : List α), a ∈ l → ∀ init, l.foldlM f init = none := by
  intro l
  induction l with
  | nil => intro h; simp at h
  | cons x rest ih =>
    intro h init
    simp only [List.foldlM_cons]
    rcases List.mem_cons.mp h with rfl | h
    · rw [hf init]
      rfl
    · cases hx : f init x with
      | none => rfl
      | some acc => simpa using ih h acc

/-- Filtering twice with one predicate equals filtering once. -/
theorem filter_keep_idem {α : Type} (p : α → Bool) (l : List α) :
    (l.filter p).filter p = l.filter p := by
  induction l with
  | nil => rfl
  | cons x rest ih =>
    by_cases hx : p x = true
    · simp [List.filter_cons, hx, ih]
    · simp [List.filter_cons, hx, ih]

/-- A nonempty pattern is not a prefix of the empty string. -/
theorem strStartsWith_empty (p : String) (h : p ≠ "") : strStartsWith "" p = false := by
  cases p with
  | mk pdata =>
    cases pdata with
    | nil => exact absurd rfl h
    | cons c rest => rfl

/-! Helpers for the remaining claims. -/

/-- Unpacking of a successful entry derivation in the discovered mode. -/
theorem entryFor_eq_some (c s : String) (b : Block) (e : Entry)
    (h : Disc.entryFor c s b = some e) :
    ∃ l1 l2 l3 r rest, b.breadcrumbs = Bcrumbs.arr (l1 :: l2 :: l3 :: r :: rest) ∧
      l1 ++ " > " ++ l2 = c ∧ l3 = s ∧
      e = ⟨joinSep " > " (r :: rest), b.content⟩ := by
  unfold Disc.entryFor at h
  revert h
  cases hb : b.breadcrumbs with
  | arr segs =>
    rcases segs with _ | ⟨l1, _ | ⟨l2, _ | ⟨l3, _ | ⟨r, rest⟩⟩⟩⟩
    · intro h; exact Option.noConfusion h
    · intro h; exact Option.noConfusion h
    · intro h; exact Option.noConfusion h
    · intro h; exact Option.noConfusion h
    · intro h
      by_cases hcond : l1 ++ " > " ++ l2 = c ∧ l3 = s
      · have h' : (if l1 ++ " > " ++ l2 = c ∧ l3 = s then
            some (⟨joinSep " > " (r :: rest), b.content⟩ : Entry) else none) = some e := h
        rw [if_pos hcond] at h'
        exact ⟨l1, l2, l3, r, rest, rfl, hcond.1, hcond.2, (Option.some.inj h').symm⟩
      · have h' : (if l1 ++ " > " ++ l2 = c ∧ l3 = s then
            some (⟨joinSep " > " (r :: rest), b.content⟩ : Entry) else none) = some e := h
        rw [if_neg hcond] at h'
        exact Option.noConfusion h'
  | str s0 => intro h; exact Option.noConfusion h
  | missing => intro h; exact Option.noConfusion h

/-- A block whose breadcrumbs is not an array is skipped by the discovery
pass. -/
theorem analyzeStep_skip (acc : List (String × List String)) (b : Block)
    (h : ∀ segs, b.breadcrumbs ≠ Bcrumbs.arr segs) : Disc.analyzeStep acc b = acc := by
  unfold Disc.analyzeStep
  cases hb : b.breadcrumbs with
  | arr segs => exact absurd hb (h segs)
  | str s0 => rfl
  | missing => rfl

/-- A block whose breadcrumbs is not an array is skipped by the
discovered-schema second pass. -/
theorem processBlock_skip (bs : Buckets) (b : Block)
    (h : ∀ segs, b.breadcrumbs ≠ Bcrumbs.arr segs) : Disc.processBlock bs b = bs := by
  unfold Disc.processBlock
  cases hb : b.breadcrumbs with
  | arr segs => exact absurd hb (h segs)
  | str s0 => rfl
  | missing => rfl

/-- A filtered-in block whose breadcrumbs is neither an array nor a
string aborts the fixed-schema per-block step. -/
theorem processBlock_missing (b : Block) (hb : b.breadcrumbs = Bcrumbs.missing)
    (acc : Buckets) : Fixed.processBlock acc b = none := by
  unfold Fixed.processBlock Fixed.joinBreadcrumbs
  rw [hb]

/-- A kept block has non-empty content. -/
theorem keepBlock_content (pats : List String) (b : Block)
    (h : keepBlock pats b = true) : b.content ≠ "" := by
  intro hc
  unfold keepBlock at h
  rw [if_pos hc] at h
  exact Bool.false_ne_true h

/-- Every output block of the title-mapping flat script has non-empty
content. -/
theorem flatMap_content_ne (blocks : List Block) :
    ∀ t ∈ FlatMap.optimizeBlocks blocks, t.content ≠ "" := by
  intro t ht
  unfold FlatMap.optimizeBlocks at ht
  obtain ⟨b, hb, rfl⟩ := List.mem_map.mp ht
  obtain ⟨_, hkeep⟩ := List.mem_filter.mp hb
  have := keepBlock_content _ _ hkeep
  simpa [FlatMap.toTitled] using this

/-- Re-read output blocks of the title-mapping flat script all pass the
filter again. -/
theorem flatMap_rewrap_keep (blocks : List Block) :
    ((FlatMap.optimizeBlocks blocks).map FlatMap.rewrap).filter
        (keepBlock FlatMap.excludePatterns) =
      (FlatMap.optimizeBlocks blocks).map FlatMap.rewrap := by
  rw [List.filter_eq_self]
  intro b hb
  obtain ⟨t, ht, rfl⟩ := List.mem_map.mp hb
  have hc := flatMap_content_ne blocks t ht
  unfold FlatMap.rewrap keepBlock
  simp [hc]

/-! The claims. -/

/-- C1: on the worked example, with the configured chapter structure and
exclude patterns of scripts/optimize.js, the fixed-schema output contains
exactly one chapter, Docs > Svelte, with exactly one section, Runes,
containing exactly the block with content a and title derived from the
last breadcrumb segment; the empty-content block and the excluded
/tutorial block are absent. -/
theorem claim1_fixed_example :
    Fixed.optimizeContent
      [⟨"a", Bcrumbs.arr ["Docs", "Svelte", "Runes", "$state"], none⟩,
       ⟨"", Bcrumbs.arr ["Docs", "Svelte", "Runes", "$derived"], none⟩,
       ⟨"b", Bcrumbs.arr ["Docs", "Svelte", "Runes", "$effect"], some "/tutorial/x"⟩] =
      some [⟨"Docs > Svelte", [⟨"Runes", [⟨"$state", "a"⟩]⟩]⟩] := by
  rfl

/-- C2: in the discovered-schema mode, every entry of every bucket of the
grouped output comes from an input block that passed both filters and has
an array breadcrumbs of at least four segments, with chapter key joined
from the first two segments, section key the third segment and title the
join of the remaining segments; moreover a record whose breadcrumbs array
has exactly two segments is never placed, regardless of its content or
href. -/
theorem claim2_disc_matching :
    (∀ (blocks : List Block) (c s : String) (e : Entry),
        e ∈ bucketAt (Disc.group blocks) c s →
        ∃ b, b ∈ blocks ∧ keepBlock Disc.excludePatterns b = true ∧
          ∃ l1 l2 l3 r rest,
            b.breadcrumbs = Bcrumbs.arr (l1 :: l2 :: l3 :: r :: rest) ∧
            c = l1 ++ " > " ++ l2 ∧ s = l3 ∧
            e = ⟨joinSep " > " (r :: rest), b.content⟩) ∧
    (∀ (content : String) (href : Option String) (c s : String),
        bucketAt (Disc.group [⟨content, Bcrumbs.arr ["Docs", "Svelte"], href⟩]) c s = []) := by
  constructor
  · intro blocks c s e he
    rw [disc_bucket_spec] at he
    by_cases hreg : hasPair (Disc.chapterStructure blocks) c s = true
    · rw [if_pos hreg] at he
      obtain ⟨b, hbf, hfe⟩ := List.mem_filterMap.mp he
      obtain ⟨hbmem, hkeep⟩ := List.mem_filter.mp hbf
      obtain ⟨l1, l2, l3, r, rest, hbc, hc1, hc2, hee⟩ := entryFor_eq_some c s b e hfe
      exact ⟨b, hbmem, hkeep, l1, l2, l3, r, rest, hbc, hc1.symm, hc2.symm, hee⟩
    · rw [if_neg hreg] at he
      simp at he
  · intro content href c s
    unfold Disc.group
    rw [show Disc.initChapters [⟨content, Bcrumbs.arr ["Docs", "Svelte"], href⟩] = []
      from rfl]
    by_cases hk : keepBlock Disc.excludePatterns
        ⟨content, Bcrumbs.arr ["Docs", "Svelte"], href⟩ = true
    · rw [List.filter_cons, if_pos hk, List.filter_nil]
      rfl
    · rw [List.filter_cons, if_neg hk, List.filter_nil]
      rfl

/-- C2 witness: one concrete placed entry traced back to its block. -/
theorem claim2_witness :
    ∃ b, b ∈ [(⟨"hello", Bcrumbs.arr ["Docs", "Svelte", "Runes", "$state"], none⟩ : Block)] ∧
      keepBlock Disc.excludePatterns b = true ∧
      ∃ l1 l2 l3 r rest,
        b.breadcrumbs = Bcrumbs.arr (l1 :: l2 :: l3 :: r :: rest) ∧
        "Docs > Svelte" = l1 ++ " > " ++ l2 ∧ "Runes" = l3 ∧
        (⟨"$state", "hello"⟩ : Entry) = ⟨joinSep " > " (r :: rest), b.content⟩ := by
  exact claim2_disc_matching.1
    [⟨"hello", Bcrumbs.arr ["Docs", "Svelte", "Runes", "$state"], none⟩]
    "Docs > Svelte" "Runes" ⟨"$state", "hello"⟩ (by decide)

/-- C3: every section of the discovered-schema hierarchical output renders
to the trimmed newline-join of one heading block per entry, over exactly
the filtered input blocks with that chapter and section key, in input
order. -/
theorem claim3_section_rendering (blocks : List Block) (chO : Disc.MergedChapter)
    (secO : Disc.MergedSection) (h1 : chO ∈ Disc.optimizeContent blocks)
    (h2 : secO ∈ chO.sections) :
    secO.content =
      strTrim (joinSep "\n"
        (((blocks.filter (keepBlock Disc.excludePatterns)).filterMap
            (Disc.entryFor chO.chapter secO.secName)).map
          (fun e => "### " ++ e.title ++ "\n\n" ++ e.content ++ "\n"))) := by
  obtain ⟨hne, hcontent⟩ := disc_out_mem blocks chO secO h1 h2
  have hbeq : bucketAt (Disc.group blocks) chO.chapter secO.secName =
      (blocks.filter (keepBlock Disc.excludePatterns)).filterMap
        (Disc.entryFor chO.chapter secO.secName) := by
    rw [disc_bucket_spec]
    by_cases hreg : hasPair (Disc.chapterStructure blocks) chO.chapter secO.secName = true
    · rw [if_pos hreg]
    · rw [disc_bucket_spec, if_neg hreg] at hne
      exact absurd rfl hne
  rw [hcontent, hbeq, Disc.renderSection]

/-- C3 witness: the rendering equation evaluated on a concrete two-block
input. -/
theorem claim3_witness :
    (⟨"Runes", "### $state\n\nhello\n\n### $derived\n\nworld"⟩ : Disc.MergedSection).content =
      strTrim (joinSep "\n"
        ((([(⟨"hello", Bcrumbs.arr ["Docs", "Svelte", "Runes", "$state"], none⟩ : Block),
            ⟨"world", Bcrumbs.arr ["Docs", "Svelte", "Runes", "$derived"], none⟩].filter
              (keepBlock Disc.excludePatterns)).filterMap
            (Disc.entryFor "Docs > Svelte" "Runes")).map
          (fun e => "### " ++ e.title ++ "\n\n" ++ e.content ++ "\n"))) := by
  exact claim3_section_rendering
    [⟨"hello", Bcrumbs.arr ["Docs", "Svelte", "Runes", "$state"], none⟩,
     ⟨"world", Bcrumbs.arr ["Docs", "Svelte", "Runes", "$derived"], none⟩]
    ⟨"Docs > Svelte", [⟨"Runes", "### $state\n\nhello\n\n### $derived\n\nworld"⟩]⟩
    ⟨"Runes", "### $state\n\nhello\n\n### $derived\n\nworld"⟩
    (by decide) (by decide)

/-- C4: fixed-schema matching assigns the first configured chapter, in
configured iteration order, whose name the joined breadcrumb string starts
with, and likewise the first configured section of that chapter; in the
actual configuration the name Docs > Svelte is a string prefix of the
name Docs > SvelteKit, and any breadcrumb string that starts with the
longer name also starts with the shorter one, so iteration order alone
decides that such a string is assigned Docs > SvelteKit. -/
theorem claim4_first_match :
    (∀ bc mc, Fixed.findChapter bc = some mc →
        ∃ pre post, Fixed.chapterKeys = pre ++ mc :: post ∧
          strStartsWith bc mc = true ∧ ∀ c ∈ pre, strStartsWith bc c = false) ∧
    (∀ mc rp sub,
        (Fixed.sectionsOf mc).find? (fun x => strStartsWith rp x) = some sub →
        ∃ pre post, Fixed.sectionsOf mc = pre ++ sub :: post ∧
          strStartsWith rp sub = true ∧ ∀ x ∈ pre, strStartsWith rp x = false) ∧
    strStartsWith "Docs > SvelteKit" "Docs > Svelte" = true ∧
    (∀ bc, strStartsWith bc "Docs > SvelteKit" = true →
        strStartsWith bc "Docs > Svelte" = true ∧
        Fixed.findChapter bc = some "Docs > SvelteKit") := by
  refine ⟨?_, ?_, by decide, ?_⟩
  · intro bc mc h
    exact findFirstSplit _ _ _ h
  · intro mc rp sub h
    exact findFirstSplit _ _ _ h
  · intro bc h
    constructor
    · have h1 : "Docs > Svelte".data <+: "Docs > SvelteKit".data := by decide
      have h2 : "Docs > SvelteKit".data <+: bc.data := by
        rw [← List.isPrefixOf_iff_prefix]
        exact h
      unfold strStartsWith
      rw [ List.isPrefixOf_iff_prefix]
      exact h1.trans h2
    · unfold Fixed.findChapter Fixed.chapterKeys Fixed.chapterStructure
      simp only [List.map_cons, List.map_nil]
      rw [List.find?_cons_of_pos _ h]

/-- C4 witness: a breadcrumb string matching both configured chapter names
is assigned the one that comes first in iteration order. -/
theorem claim4_witness :
    strStartsWith "Docs > SvelteKit > Routing" "Docs > Svelte" = true ∧
      Fixed.findChapter "Docs > SvelteKit > Routing" = some "Docs > SvelteKit" := by
  exact claim4_first_match.2.2.2 "Docs > SvelteKit > Routing" (by decide)

/-- C5 counterexample: in the fixed-schema mode a filtered-in record with
a missing breadcrumbs field does not get skipped; the whole grouping
operation fails. -/
theorem claim5_cex : Fixed.group [⟨"a", Bcrumbs.missing, none⟩] = none := by
  rfl

/-- C5 as amended: the discovered-schema mode tolerates a record whose
breadcrumbs is not an array by skipping it and grouping the remaining
records; the fixed-schema mode instead aborts the whole grouping
operation whenever a record that passes the filters has a breadcrumbs
value that is neither an array nor a string. -/
theorem claim5_amended :
    (∀ (l1 l2 : List Block) (b : Block),
        (∀ segs, b.breadcrumbs ≠ Bcrumbs.arr segs) →
        Disc.group (l1 ++ b :: l2) = Disc.group (l1 ++ l2)) ∧
    (∀ (blocks : List Block) (b : Block),
        b ∈ blocks.filter (keepBlock Fixed.excludePatterns) →
        b.breadcrumbs = Bcrumbs.missing → Fixed.group blocks = none) := by
  constructor
  · intro l1 l2 b hb
    unfold Disc.group
    have hstruct : Disc.initChapters (l1 ++ b :: l2) = Disc.initChapters (l1 ++ l2) := by
      unfold Disc.initChapters Disc.chapterStructure
      rw [List.foldl_append, List.foldl_append, List.foldl_cons, analyzeStep_skip _ b hb]
    rw [hstruct]
    by_cases hk : keepBlock Disc.excludePatterns b = true
    · rw [List.filter_append, List.filter_append, List.filter_cons, if_pos hk,
        List.foldl_append, List.foldl_append, List.foldl_cons,
        processBlock_skip _ b hb]
    · rw [List.filter_append, List.filter_append, List.filter_cons, if_neg hk]
  · intro blocks b hbf hbb
    unfold Fixed.group
    exact foldlM_option_none Fixed.processBlock b
      (fun acc => processBlock_missing b hbb acc) _ hbf _

/-- C5 witness: a skipped malformed record in the discovered mode and an
aborting malformed record in the fixed mode, both concrete. -/
theorem claim5_witness :
    Disc.group [⟨"x", Bcrumbs.arr ["A", "B", "C", "D"], none⟩, ⟨"y", Bcrumbs.missing, none⟩] =
        Disc.group [⟨"x", Bcrumbs.arr ["A", "B", "C", "D"], none⟩] ∧
      Fixed.group [⟨"z", Bcrumbs.missing, none⟩] = none := by
  constructor
  · exact claim5_amended.1 [⟨"x", Bcrumbs.arr ["A", "B", "C", "D"], none⟩] []
      ⟨"y", Bcrumbs.missing, none⟩ (fun segs h => Bcrumbs.noConfusion h)
  · exact claim5_amended.2 [⟨"z", Bcrumbs.missing, none⟩]
      ⟨"z", Bcrumbs.missing, none⟩ (by decide) rfl

/-- C6 counterexample: the title-mapping flat script is not idempotent:
re-running it on its own re-wrapped output replaces a present title by an
absent one. -/
theorem claim6_cex :
    FlatMap.optimizeBlocks
        ((FlatMap.optimizeBlocks [⟨"a", Bcrumbs.arr ["X"], none⟩]).map FlatMap.rewrap) ≠
      FlatMap.optimizeBlocks [⟨"a", Bcrumbs.arr ["X"], none⟩] := by
  decide

/-- C6 as amended: the filter-only flat transform is idempotent, and the
output blocks of the title-mapping flat transform do all satisfy both
filters again; but re-running the title-mapping transform on its own
re-wrapped output erases every title rather than reproducing the output,
because the output blocks carry a title field and no breadcrumbs field. -/
theorem claim6_amended :
    (∀ blocks : List Block,
        FlatFilter.optimizeBlocks (FlatFilter.optimizeBlocks blocks) =
          FlatFilter.optimizeBlocks blocks) ∧
    (∀ blocks : List Block,
        ((FlatMap.optimizeBlocks blocks).map FlatMap.rewrap).filter
            (keepBlock FlatMap.excludePatterns) =
          (FlatMap.optimizeBlocks blocks).map FlatMap.rewrap) ∧
    (∀ blocks : List Block,
        FlatMap.optimizeBlocks ((FlatMap.optimizeBlocks blocks).map FlatMap.rewrap) =
          (FlatMap.optimizeBlocks blocks).map (fun t => ⟨none, t.content⟩)) := by
  refine ⟨?_, ?_, ?_⟩
  · intro blocks
    exact filter_keep_idem _ _
  · intro blocks
    exact flatMap_rewrap_keep blocks
  · intro blocks
    show ((((FlatMap.optimizeBlocks blocks).map FlatMap.rewrap).filter
        (keepBlock FlatMap.excludePatterns)).map FlatMap.toTitled) = _
    rw [flatMap_rewrap_keep blocks, List.map_map]
    rfl

/-- C7: no section of the hierarchical output has zero matched blocks and
no chapter has zero non-empty sections, in both grouping modes. -/
theorem claim7_nonempty (blocks : List Block) :
    (∀ out, Fixed.optimizeContent blocks = some out →
        ∀ chO ∈ out, chO.sections ≠ [] ∧ ∀ secO ∈ chO.sections, secO.blocks ≠ []) ∧
    (∀ chO ∈ Disc.optimizeContent blocks, chO.sections ≠ [] ∧
        ∀ secO ∈ chO.sections,
          bucketAt (Disc.group blocks) chO.chapter secO.secName ≠ []) := by
  constructor
  · intro out hout chO hch
    unfold Fixed.optimizeContent at hout
    cases hg : Fixed.group blocks with
    | none =>
      rw [hg] at hout
      exact Option.noConfusion hout
    | some bs =>
      rw [hg] at hout
      have hout' : Fixed.toOutput bs = out := Option.some.inj hout
      rw [← hout'] at hch
      exact fixed_out_mem bs chO hch
  · intro chO hch
    refine ⟨disc_out_chapter_nonempty blocks chO hch, ?_⟩
    intro secO hsec
    exact (disc_out_mem blocks chO secO hch hsec).1

/-- C7 witness: both non-emptiness facts evaluated on a concrete input. -/
theorem claim7_witness :
    ((⟨"Docs > Svelte", [⟨"Runes", [⟨"$state", "a"⟩]⟩]⟩ : Fixed.OutChapter).sections ≠ [] ∧
        ∀ secO ∈ (⟨"Docs > Svelte", [⟨"Runes", [⟨"$state", "a"⟩]⟩]⟩ : Fixed.OutChapter).sections,
          secO.blocks ≠ []) ∧
      ((⟨"Docs > Svelte",
          [⟨"Runes", "### $state\n\na"⟩]⟩ : Disc.MergedChapter).sections ≠ []) := by
  constructor
  · exact (claim7_nonempty
      [⟨"a", Bcrumbs.arr ["Docs", "Svelte", "Runes", "$state"], none⟩]).1
      [⟨"Docs > Svelte", [⟨"Runes", [⟨"$state", "a"⟩]⟩]⟩] (by rfl)
      ⟨"Docs > Svelte", [⟨"Runes", [⟨"$state", "a"⟩]⟩]⟩ (by decide)
  · exact ((claim7_nonempty
      [⟨"a", Bcrumbs.arr ["Docs", "Svelte", "Runes", "$state"], none⟩]).2
      ⟨"Docs > Svelte", [⟨"Runes", "### $state\n\na"⟩]⟩ (by decide)).1

/-- C8: for any exclude pattern list, no record in the filtered output
has an href that starts with a non-empty configured pattern, and a record
without an href is kept exactly when its content is non-empty, so it can
only be rejected by the empty-content filter. -/
theorem claim8_path_filter (pats : List String) (blocks : List Block) :
    (∀ b ∈ blocks.filter (keepBlock pats), ∀ p ∈ pats, p ≠ "" →
        ∀ h, b.href = some h → strStartsWith h p = false) ∧
    (∀ b : Block, b.href = none → (keepBlock pats b = true ↔ b.content ≠ "")) := by
  constructor
  · intro b hb p hp hpne h hh
    obtain ⟨_, hkeep⟩ := List.mem_filter.mp hb
    unfold keepBlock at hkeep
    by_cases hc : b.content = ""
    · rw [if_pos hc] at hkeep
      exact absurd hkeep (by simp)
    · rw [if_neg hc, hh] at hkeep
      have hkeep2 : (if h = "" then true
          else !pats.any fun x => strStartsWith h x) = true := hkeep
      by_cases hhe : h = ""
      · subst hhe
        exact strStartsWith_empty p hpne
      · rw [if_neg hhe] at hkeep2
        simp only [Bool.not_eq_true', List.any_eq_false] at hkeep2
        simpa using hkeep2 p hp
  · intro b hh
    unfold keepBlock
    rw [hh]
    by_cases hc : b.content = ""
    · simp [hc]
    · simp [hc]

/-- C8 witness: the postcondition evaluated on a concrete filtered list
and pattern. -/
theorem claim8_witness : strStartsWith "/x" "/tutorial" = false := by
  exact (claim8_path_filter Disc.excludePatterns
      [⟨"a", Bcrumbs.missing, some "/x"⟩]).1
    ⟨"a", Bcrumbs.missing, some "/x"⟩ (by decide) "/tutorial" (by decide)
    (by decide) "/x" rfl

/-- C9: in the discovered-schema mode no placeable record is silently
dropped: every filtered-in block with an array breadcrumbs of at least
four segments has its chapter and section pair registered by the
discovery pass over the unfiltered input, and its entry is filed into
that bucket of the grouped output. -/
theorem claim9_no_silent_drop (blocks : List Block) (b : Block)
    (l1 l2 l3 r : String) (rest : List String)
    (hb : b ∈ blocks.filter (keepBlock Disc.excludePatterns))
    (hbc : b.breadcrumbs = Bcrumbs.arr (l1 :: l2 :: l3 :: r :: rest)) :
    hasPair (Disc.chapterStructure blocks) (l1 ++ " > " ++ l2) l3 = true ∧
      (⟨joinSep " > " (r :: rest), b.content⟩ : Entry) ∈
        bucketAt (Disc.group blocks) (l1 ++ " > " ++ l2) l3 := by
  have hmem : b ∈ blocks := List.mem_of_mem_filter hb
  have hreg := chapterStructure_registers blocks b l1 l2 l3 (r :: rest) hmem hbc
  refine ⟨hreg, ?_⟩
  rw [disc_bucket_spec, if_pos hreg]
  apply List.mem_filterMap.mpr
  refine ⟨b, hb, ?_⟩
  simp [Disc.entryFor, hbc]

/-- C9 witness: a concrete placeable record is filed into its bucket. -/
theorem claim9_witness :
    hasPair
        (Disc.chapterStructure
          [⟨"", Bcrumbs.arr ["Docs", "Svelte", "Runes", "$state"], none⟩,
           ⟨"hello", Bcrumbs.arr ["Docs", "Svelte", "Runes", "$state", "deep"], none⟩])
        "Docs > Svelte" "Runes" = true ∧
      (⟨"$state > deep", "hello"⟩ : Entry) ∈
        bucketAt
          (Disc.group
            [⟨"", Bcrumbs.arr ["Docs", "Svelte", "Runes", "$state"], none⟩,
             ⟨"hello", Bcrumbs.arr ["Docs", "Svelte", "Runes", "$state", "deep"], none⟩])
          "Docs > Svelte" "Runes" := by
  exact claim9_no_silent_drop
    [⟨"", Bcrumbs.arr ["Docs", "Svelte", "Runes", "$state"], none⟩,
     ⟨"hello", Bcrumbs.arr ["Docs", "Svelte", "Runes", "$state", "deep"], none⟩]
    ⟨"hello", Bcrumbs.arr ["Docs", "Svelte", "Runes", "$state", "deep"], none⟩
    "Docs" "Svelte" "Runes" "$state" ["deep"] (by decide) rfl

/-- C10: for every configured chapter and section pair, a record whose
joined breadcrumbs is exactly the chapter name, the separator and the
section name is still placed in that bucket, with title equal to the
section name itself rather than the empty string, because stripping
removes the string section-plus-separator, which does not occur. -/
theorem claim10_exact_boundary :
    ∀ p ∈ Fixed.chapterStructure, ∀ s ∈ p.2,
      Fixed.matchBlock (p.1 ++ " > " ++ s) = some (p.1, s, s) := by
  decide

/-- C10 witness: the boundary case evaluated at one configured pair. -/
theorem claim10_witness :
    Fixed.matchBlock ("Docs > Svelte" ++ " > " ++ "Runes") =
      some ("Docs > Svelte", "Runes", "Runes") := by
  exact claim10_exact_boundary
    ("Docs > Svelte",
     ["Introduction", "Runes", "Template syntax", "Styling",
      "Special elements", "Runtime", "Advanced", "Testing", "TypeScript",
      "Custom elements", "Packaging"]) (by decide) "Runes" (by decide)
